import Mathlib

/-!
Verification development for the voice-conversation backend.

Python strings are modelled as `List Char` for the character-level text
processing (utterance chunker, voice-activity detection) and as `String`
for dialogue contents.  Machine floats that the source only uses for
exact-valued arithmetic on small integers are modelled as exact rationals.
-/

namespace VoiceAI

/-- Whitespace characters recognised by Python's `str.strip` / `\s` for
the ASCII texts this backend processes. -/
def isWS (c : Char) : Bool :=
  c = ' ' || c = '\t' || c = '\n' || c = '\r' || c = '\x0b' || c = '\x0c'

/-- Sentence-terminator characters of the regex class `[.!?]`. -/
def isTerm (c : Char) : Bool :=
  c = '.' || c = '!' || c = '?'

/-- A character that is a comma or whitespace. -/
def isCW (c : Char) : Bool := c = ',' || isWS c

/-- The residue of a text after erasing every comma and whitespace
character; used to state that chunking loses no sentence content. -/
def stripCW (l : List Char) : List Char := l.filter (fun c => !isCW c)

/-- Python `str.strip()`: remove leading and trailing whitespace. -/
def pstrip (l : List Char) : List Char :=
  ((l.dropWhile isWS).reverse.dropWhile isWS).reverse

theorem length_dropWhile_le (p : Char → Bool) (l : List Char) :
    (l.dropWhile p).length ≤ l.length := by
  induction l with
  | nil => simp [List.dropWhile]
  | cons a as ih =>
    by_cases h : p a
    · rw [List.dropWhile_cons_of_pos h]
      exact Nat.le_succ_of_le ih
    · rw [List.dropWhile_cons_of_neg h]

/-- Python `str.split()` (whitespace split, empty parts dropped).  The
fuel argument only forces structural recursion so that the definition
computes by kernel reduction; every recursive call strictly shrinks the
list, so fuel `l.length` always suffices and the fuel-exhausted fallback
`[l]` is unreachable from `pwords`. -/
def pwordsAux : Nat → List Char → List (List Char)
  | _, [] => []
  | 0, l => [l]
  | fuel + 1, c :: rest =>
    if isWS c then pwordsAux fuel rest
    else (c :: rest.takeWhile (fun x => !isWS x)) ::
      pwordsAux fuel (rest.dropWhile (fun x => !isWS x))

def pwords (l : List Char) : List (List Char) := pwordsAux l.length l

/-- Python `re.split` with the capturing pattern `([.!?]+)`: alternating
non-terminator pieces and maximal terminator runs, concatenating back to
the input.  `acc` is the reversed pending non-terminator piece; the fuel
argument only forces structural recursion (fuel `l.length` always
suffices, and the fuel-exhausted fallback keeps the concatenation
property). -/
def splitTermAux : Nat → List Char → List Char → List (List Char)
  | _, [], acc => [acc.reverse]
  | 0, l, acc => [acc.reverse ++ l]
  | fuel + 1, c :: rest, acc =>
    if isTerm c then
      acc.reverse :: (c :: rest.takeWhile isTerm) ::
        splitTermAux fuel (rest.dropWhile isTerm) []
    else
      splitTermAux fuel rest (c :: acc)

def splitTerm (l : List Char) : List (List Char) := splitTermAux l.length l []

/-- Prefix test on character lists (Python `str.startswith`). -/
def startsWith : List Char → List Char → Bool
  | [], _ => true
  | _ :: _, [] => false
  | a :: as, b :: bs => a = b && startsWith as bs

/-- The conjunction words of the secondary-split regex of
`AIService.text_to_speech_streaming`, in regex alternation order. -/
def conjWords : List (List Char) :=
  ["and".toList, "but".toList, "or".toList, "however".toList, "therefore".toList,
   "meanwhile".toList, "also".toList, "because".toList, "since".toList,
   "while".toList, "although".toList]

/-- Try to match one alternative word of `(?:and|but|...)\s+` at the head
of `l`; on success return the matched text (word plus trailing whitespace
run) and the remainder. -/
def tryConjWord (w l : List Char) : Option (List Char × List Char) :=
  if startsWith w l then
    let after := l.drop w.length
    let ws2 := after.takeWhile isWS
    if ws2.isEmpty then none else some (w ++ ws2, after.dropWhile isWS)
  else none

def tryConjList : List (List Char) → List Char → Option (List Char × List Char)
  | [], _ => none
  | w :: ws, l =>
    match tryConjWord w l with
    | some r => some r
    | none => tryConjList ws l

/-- Match `(?:and|but|...)\s+` at the head of `l`, trying the alternation
in order as Python's regex engine does. -/
def tryConj (l : List Char) : Option (List Char × List Char) := tryConjList conjWords l

/-- Match the separator regex `,\s+(?:and|but|...)\s+|,\s+` at the head of
`l`; on success return the matched separator and the remainder.  The
first alternative can only succeed with the maximal whitespace run after
the comma, because every conjunction word starts with a letter. -/
def matchSep : List Char → Option (List Char × List Char)
  | [] => none
  | c :: rest =>
    if c = ',' then
      let ws1 := rest.takeWhile isWS
      if ws1.isEmpty then none
      else
        match tryConj (rest.dropWhile isWS) with
        | some (cw, rest2) => some (c :: (ws1 ++ cw), rest2)
        | none => some (c :: ws1, rest.dropWhile isWS)
    else none

theorem startsWith_append_drop :
    ∀ (w l : List Char), startsWith w l = true → w ++ l.drop w.length = l := by
  intro w
  induction w with
  | nil => intro l _; simp
  | cons a as ih =>
    intro l h
    cases l with
    | nil => simp [startsWith] at h
    | cons b bs =>
      simp only [startsWith, Bool.and_eq_true, decide_eq_true_eq] at h
      simp only [List.length_cons, List.cons_append, List.drop_succ_cons]
      rw [h.1, ih bs h.2]

theorem tryConjWord_spec {w l sep rest : List Char}
    (h : tryConjWord w l = some (sep, rest)) : sep ++ rest = l := by
  unfold tryConjWord at h
  split at h
  case isTrue hp =>
    by_cases he : (List.takeWhile isWS (List.drop w.length l)).isEmpty = true
    · exact absurd h (by simp [he])
    · simp only [he, if_false, Option.some.injEq, Prod.mk.injEq] at h
      obtain ⟨rfl, rfl⟩ := h
      rw [List.append_assoc, List.takeWhile_append_dropWhile]
      exact startsWith_append_drop w l hp
  case isFalse => exact absurd h (by simp)

theorem tryConjList_spec :
    ∀ (ws : List (List Char)) (l sep rest : List Char),
      tryConjList ws l = some (sep, rest) → sep ++ rest = l := by
  intro ws
  induction ws with
  | nil => intro l sep rest h; simp [tryConjList] at h
  | cons w ws ih =>
    intro l sep rest h
    unfold tryConjList at h
    cases hw : tryConjWord w l with
    | some r =>
      rw [hw] at h
      obtain ⟨a, b⟩ := r
      simp only [Option.some.injEq, Prod.mk.injEq] at h
      obtain ⟨rfl, rfl⟩ := h
      exact tryConjWord_spec hw
    | none =>
      rw [hw] at h
      exact ih l sep rest h

theorem matchSep_spec {l sep rest : List Char}
    (h : matchSep l = some (sep, rest)) : sep ++ rest = l ∧ sep ≠ [] := by
  cases l with
  | nil => simp [matchSep] at h
  | cons c cs =>
    unfold matchSep at h
    by_cases hc : c = ','
    · simp only [hc, if_true] at h
      by_cases he : (List.takeWhile isWS cs).isEmpty = true
      · exact absurd h (by simp [he])
      · simp only [he, if_false] at h
        cases htc : tryConj (cs.dropWhile isWS) with
        | some p =>
          obtain ⟨cw, rest2⟩ := p
          rw [htc] at h
          simp only [Option.some.injEq, Prod.mk.injEq] at h
          obtain ⟨rfl, rfl⟩ := h
          refine ⟨?_, by simp⟩
          have hcw : cw ++ rest = cs.dropWhile isWS :=
            tryConjList_spec conjWords (cs.dropWhile isWS) cw rest htc
          simp only [List.cons_append, List.append_assoc]
          rw [hcw, List.takeWhile_append_dropWhile, hc]
        | none =>
          rw [htc] at h
          simp only [Option.some.injEq, Prod.mk.injEq] at h
          obtain ⟨rfl, rfl⟩ := h
          refine ⟨?_, by simp⟩
          simp only [List.cons_append]
          rw [List.takeWhile_append_dropWhile, hc]
    · exact absurd h (by simp [hc])

theorem matchSep_shrink {l : List Char} {p : List Char × List Char}
    (h : matchSep l = some p) : p.2.length < l.length := by
  obtain ⟨sep, rest⟩ := p
  obtain ⟨heq, hne⟩ := matchSep_spec h
  have hlen : l.length = sep.length + rest.length := by
    rw [← heq, List.length_append]
  have hpos : 0 < sep.length := List.length_pos.mpr hne
  show rest.length < l.length
  omega

/-- Python `re.split` with the capturing separator pattern
`(,\s+(?:and|but|...)\s+|,\s+)`: alternating pieces and separators,
concatenating back to the input.  The fuel argument only forces
structural recursion: by `matchSep_shrink` every step strictly shrinks
the list, so fuel `l.length` always suffices. -/
def splitConjAux : Nat → List Char → List Char → List (List Char)
  | _, [], acc => [acc.reverse]
  | 0, l, acc => [acc.reverse ++ l]
  | fuel + 1, c :: rest, acc =>
    match matchSep (c :: rest) with
    | some (sep, rest2) => acc.reverse :: sep :: splitConjAux fuel rest2 []
    | none => splitConjAux fuel rest (c :: acc)

def splitConj (l : List Char) : List (List Char) := splitConjAux l.length l []

/-! The utterance chunker of `AIService.text_to_speech_streaming`
(src/backend/services/ai_service.py lines 404-520), stage by stage. -/

/-- Python's `re.match` prefix test for the pattern `[.!?]+`. -/
def isTermRun (part : List Char) : Bool :=
  match part with
  | [] => false
  | p :: _ => isTerm p

/-- Loop body of the primary sentence split: punctuation parts are glued
to the pending chunk, which is finalized once its stripped length exceeds
20; whitespace-only pieces are dropped. -/
def stage1Fold (acc : List Char × List (List Char)) (part : List Char) :
    List Char × List (List Char) :=
  if isTermRun part then
    if !(pstrip (acc.1 ++ part)).isEmpty && decide (20 < (pstrip (acc.1 ++ part)).length) then
      ([], acc.2 ++ [pstrip (acc.1 ++ part)])
    else (acc.1 ++ part, acc.2)
  else if !(pstrip part).isEmpty then (acc.1 ++ part, acc.2)
  else acc

/-- Primary chunking stage: split at sentence terminators. -/
def stage1 (text : List Char) : List (List Char) :=
  let r := (splitTerm text).foldl stage1Fold ([], [])
  if !(pstrip r.1).isEmpty then r.2 ++ [pstrip r.1] else r.2

/-- Python's `re.match` prefix test for `,\s+(?:and|but|...)\s+`. -/
def isConjSepPrefix (part : List Char) : Bool :=
  match part with
  | [] => false
  | c :: rest =>
    c = ',' && !(rest.takeWhile isWS).isEmpty && (tryConj (rest.dropWhile isWS)).isSome

/-- Loop body of the secondary comma/conjunction split. -/
def stage2Fold (acc : List Char × List (List Char)) (part : List Char) :
    List Char × List (List Char) :=
  if (part.getLast? = some ',' || isConjSepPrefix part) &&
      decide (40 < (pstrip (acc.1 ++ part)).length) then
    ([], acc.2 ++ [pstrip (acc.1 ++ part)])
  else (acc.1 ++ part, acc.2)

/-- Secondary chunking stage: split at commas and major conjunctions. -/
def stage2 (text : List Char) : List (List Char) :=
  let r := (splitConj text).foldl stage2Fold ([], [])
  if !(pstrip r.1).isEmpty then r.2 ++ [pstrip r.1] else r.2

/-- Loop body of the word-based fallback split: pack words greedily into
45-character chunks, adding a pacing comma to every chunk finalized while
fewer than `nwords / 6` chunks exist. -/
def stage3Fold (nwords : Nat) (acc : List Char × List (List Char)) (w : List Char) :
    List Char × List (List Char) :=
  if (acc.1 ++ (if acc.1.isEmpty then [] else [' ']) ++ w).length ≤ 45 then
    (acc.1 ++ (if acc.1.isEmpty then [] else [' ']) ++ w, acc.2)
  else if acc.1.isEmpty then (w, acc.2)
  else (w, acc.2 ++ [if acc.2.length < nwords / 6 then acc.1 ++ [','] else acc.1])

/-- Word-based fallback chunking stage. -/
def stage3 (text : List Char) : List (List Char) :=
  let ws := pwords text
  let r := ws.foldl (stage3Fold ws.length) ([], [])
  if !r.1.isEmpty then r.2 ++ [r.1] else r.2

/-- The chunk list before the oversize pass, with the staged fallbacks:
stage 2 replaces stage 1's output when it yielded at most one chunk on a
text longer than 100 characters, and stage 3 replaces that when there is
still at most one chunk and the text has more than 6 words. -/
def stagedChunks (text : List Char) : List (List Char) :=
  let c1 := stage1 text
  let c2 := if c1.length ≤ 1 && decide (100 < text.length) then stage2 text else c1
  if c2.length ≤ 1 && decide (6 < (pwords text).length) then stage3 text else c2

/-- Oversize splitting of one chunk at comma boundaries (Python
`chunk.split(',')` followed by greedy repacking with re-inserted commas). -/
def commaRepack (acc : List (List Char) × List Char) (part : List Char) :
    List (List Char) × List Char :=
  if (acc.2 ++ (if acc.2.isEmpty then [] else [',']) ++ part).length ≤ 120 then
    (acc.1, acc.2 ++ (if acc.2.isEmpty then [] else [',']) ++ part)
  else ((if acc.2.isEmpty then acc.1 else acc.1 ++ [acc.2 ++ [',']]), pstrip part)

def splitBigComma (c : List Char) : List (List Char) :=
  let r := (c.splitOn ',').foldl commaRepack ([], [])
  if r.2.isEmpty then r.1 else r.1 ++ [r.2]

/-- One step of oversize word repacking (Python word loop of the safe
pass). -/
def wordRepack (acc : List (List Char) × List Char) (w : List Char) :
    List (List Char) × List Char :=
  if (acc.2 ++ (if acc.2.isEmpty then [] else [' ']) ++ w).length ≤ 120 then
    (acc.1, acc.2 ++ (if acc.2.isEmpty then [] else [' ']) ++ w)
  else ((if acc.2.isEmpty then acc.1 else acc.1 ++ [acc.2]), w)

/-- Oversize splitting of one chunk at word boundaries. -/
def splitBigWords (c : List Char) : List (List Char) :=
  let r := (pwords c).foldl wordRepack ([], [])
  if r.2.isEmpty then r.1 else r.1 ++ [r.2]

/-- The oversize pass applied to one staged chunk. -/
def safeOne (c : List Char) : List (List Char) :=
  if c.length ≤ 120 then [c]
  else if c.contains ',' then splitBigComma c
  else splitBigWords c

/-- The oversize pass over all staged chunks, in order. -/
def safePass (chunks : List (List Char)) : List (List Char) :=
  chunks.foldl (fun acc c => acc ++ safeOne c) []

/-- The full text-chunking pipeline of `text_to_speech_streaming`: staged
splitting, the oversize pass, the `[text[:120]]` fallback for an empty
result, and the final filter that skips whitespace-only chunks (the
`if not chunk.strip(): continue` in the yield loop).  The resulting list
contains exactly the texts of the yielded chunks, in yield order. -/
def streamingChunks (text : List Char) : List (List Char) :=
  let chunks := safePass (stagedChunks text)
  let chunks2 := if chunks.isEmpty then [text.take 120] else chunks
  chunks2.filter (fun c => !(pstrip c).isEmpty)

/-! Content-preservation lemmas for the chunker. -/

theorem stripCW_append (a b : List Char) :
    stripCW (a ++ b) = stripCW a ++ stripCW b :=
  List.filter_append ..

theorem stripCW_allWS {l : List Char} (h : ∀ c ∈ l, isWS c = true) :
    stripCW l = [] := by
  apply List.filter_eq_nil_iff.mpr
  intro c hc
  simp only [Bool.not_eq_true, Bool.not_eq_true']
  simp [isCW, h c hc]

theorem stripCW_dropWhileWS (l : List Char) :
    stripCW (l.dropWhile isWS) = stripCW l := by
  conv_rhs => rw [← List.takeWhile_append_dropWhile (p := isWS) (l := l)]
  rw [stripCW_append, stripCW_allWS (fun c hc => List.mem_takeWhile_imp hc)]
  rfl

theorem stripCW_reverse (l : List Char) :
    stripCW l.reverse = (stripCW l).reverse :=
  List.filter_reverse ..

theorem stripCW_pstrip (l : List Char) : stripCW (pstrip l) = stripCW l := by
  unfold pstrip
  rw [stripCW_reverse, stripCW_dropWhileWS, stripCW_reverse,
    List.reverse_reverse, stripCW_dropWhileWS]

theorem pstrip_nil_stripCW {l : List Char} (h : pstrip l = []) : stripCW l = [] := by
  rw [← stripCW_pstrip, h]
  rfl

theorem flatten_splitTermAux :
    ∀ (fuel : Nat) (l acc : List Char),
      (splitTermAux fuel l acc).flatten = acc.reverse ++ l := by
  intro fuel
  induction fuel with
  | zero => intro l acc; cases l <;> simp [splitTermAux]
  | succ n ih =>
    intro l acc
    cases l with
    | nil => simp [splitTermAux]
    | cons c rest =>
      by_cases hterm : isTerm c = true
      · rw [splitTermAux, if_pos hterm]
        simp only [List.flatten_cons]
        rw [ih]
        simp only [List.reverse_nil, List.nil_append, List.cons_append, List.append_assoc]
        rw [List.takeWhile_append_dropWhile]
      · rw [splitTermAux, if_neg hterm]
        rw [ih]
        simp

theorem flatten_splitTerm (l : List Char) : (splitTerm l).flatten = l := by
  unfold splitTerm
  rw [flatten_splitTermAux]
  rfl

theorem flatten_splitConjAux :
    ∀ (fuel : Nat) (l acc : List Char),
      (splitConjAux fuel l acc).flatten = acc.reverse ++ l := by
  intro fuel
  induction fuel with
  | zero => intro l acc; cases l <;> simp [splitConjAux]
  | succ n ih =>
    intro l acc
    cases l with
    | nil => simp [splitConjAux]
    | cons c rest =>
      rcases hms : matchSep (c :: rest) with _ | ⟨sep, rest2⟩
      · simp only [splitConjAux, hms]
        rw [ih]
        simp
      · simp only [splitConjAux, hms, List.flatten_cons]
        rw [ih]
        have hspec := matchSep_spec hms
        simp only [List.reverse_nil, List.nil_append, List.append_assoc]
        rw [hspec.1]

theorem flatten_splitConj (l : List Char) : (splitConj l).flatten = l := by
  unfold splitConj
  rw [flatten_splitConjAux]
  rfl

theorem stripCW_flatten_pwordsAux :
    ∀ (fuel : Nat) (l : List Char),
      stripCW (pwordsAux fuel l).flatten = stripCW l := by
  intro fuel
  induction fuel with
  | zero => intro l; cases l <;> simp [pwordsAux]
  | succ n ih =>
    intro l
    cases l with
    | nil => simp [pwordsAux]
    | cons c rest =>
      by_cases hws : isWS c = true
      · rw [pwordsAux, if_pos hws,
          show stripCW (c :: rest) = stripCW rest from by simp [stripCW, isCW, hws]]
        exact ih rest
      · rw [pwordsAux, if_neg hws]
        simp only [List.flatten_cons]
        rw [stripCW_append, ih]
        have hr : rest = rest.takeWhile (fun x => !isWS x) ++ rest.dropWhile (fun x => !isWS x) :=
          (List.takeWhile_append_dropWhile ..).symm
        conv_rhs => rw [show (c :: rest) = [c] ++ rest by rfl, hr]
        rw [stripCW_append, stripCW_append, ← List.append_assoc]
        congr 1
        rw [← stripCW_append]
        rfl

theorem stripCW_flatten_pwords (l : List Char) :
    stripCW (pwords l).flatten = stripCW l :=
  stripCW_flatten_pwordsAux l.length l

theorem stripCW_nil : stripCW [] = [] := rfl

theorem stripCW_comma : stripCW [','] = [] := rfl

theorem stripCW_space : stripCW [' '] = [] := rfl

theorem stripCW_cons_space (w : List Char) : stripCW (' ' :: w) = stripCW w := by
  simp [stripCW, isCW, isWS]

theorem stripCW_flatten_intersperse_comma (ls : List (List Char)) :
    stripCW (List.intersperse [','] ls).flatten = stripCW ls.flatten := by
  induction ls with
  | nil => rfl
  | cons x t ih =>
    cases t with
    | nil => rfl
    | cons y t2 =>
      rw [List.intersperse_cons_cons]
      simp only [List.flatten_cons, stripCW_append] at ih ⊢
      rw [stripCW_comma]
      simp only [List.nil_append]
      rw [← ih]

theorem stripCW_flatten_splitOnComma (c : List Char) :
    stripCW (c.splitOn ',').flatten = stripCW c := by
  conv_rhs => rw [← List.intercalate_splitOn c ',']
  rw [List.intercalate, stripCW_flatten_intersperse_comma]

theorem isEmpty_false_ne_nil {l : List Char} (h : l.isEmpty = false) : l ≠ [] := by
  cases l with
  | nil => simp [List.isEmpty] at h
  | cons a as => simp

/-! Each fold step of the chunker adds exactly the comma-and-whitespace
free residue of the processed piece to the residue of its state. -/

theorem stage1Fold_step (cur : List Char) (chunks : List (List Char)) (p : List Char) :
    stripCW ((stage1Fold (cur, chunks) p).2).flatten ++ stripCW (stage1Fold (cur, chunks) p).1
      = (stripCW chunks.flatten ++ stripCW cur) ++ stripCW p := by
  simp only [stage1Fold]
  split
  · split
    · simp [List.flatten_append, stripCW_append, stripCW_pstrip, stripCW_nil,
        List.append_assoc]
    · simp [stripCW_append, List.append_assoc]
  · split
    · simp [stripCW_append, List.append_assoc]
    · next hns hp =>
      have hper : stripCW p = [] := by
        apply pstrip_nil_stripCW
        apply List.isEmpty_iff.mp
        simpa using hp
      simp [stripCW_append, hper]

theorem stage2Fold_step (cur : List Char) (chunks : List (List Char)) (p : List Char) :
    stripCW ((stage2Fold (cur, chunks) p).2).flatten ++ stripCW (stage2Fold (cur, chunks) p).1
      = (stripCW chunks.flatten ++ stripCW cur) ++ stripCW p := by
  simp only [stage2Fold]
  split
  · simp [List.flatten_append, stripCW_append, stripCW_pstrip, stripCW_nil,
      List.append_assoc]
  · simp [stripCW_append, List.append_assoc]

theorem stage3Fold_step (n : Nat) (cur : List Char) (chunks : List (List Char)) (w : List Char) :
    stripCW ((stage3Fold n (cur, chunks) w).2).flatten ++ stripCW (stage3Fold n (cur, chunks) w).1
      = (stripCW chunks.flatten ++ stripCW cur) ++ stripCW w := by
  simp only [stage3Fold]
  by_cases hc : cur.isEmpty = true
  · have hnil : cur = [] := List.isEmpty_iff.mp hc
    subst hnil
    split <;> simp [stripCW_nil, stripCW_append]
  · have hc2 : cur.isEmpty = false := by simpa using hc
    simp only [hc2, Bool.false_eq_true, if_false]
    split
    · simp [stripCW_append, stripCW_space, stripCW_cons_space, List.append_assoc]
    · by_cases hlt : chunks.length < n / 6 <;>
        simp [hlt, List.flatten_append, stripCW_append, stripCW_comma, List.append_assoc]

/-- A generic accumulation lemma turning a per-step residue equation into
one for the whole fold. -/
theorem foldl_residue_inv (f : List Char × List (List Char) → List Char → List Char × List (List Char))
    (hf : ∀ cur chunks p,
      stripCW ((f (cur, chunks) p).2).flatten ++ stripCW (f (cur, chunks) p).1
        = (stripCW chunks.flatten ++ stripCW cur) ++ stripCW p) :
    ∀ (parts : List (List Char)) (cur : List Char) (chunks : List (List Char)),
      stripCW ((parts.foldl f (cur, chunks)).2).flatten ++ stripCW (parts.foldl f (cur, chunks)).1
        = (stripCW chunks.flatten ++ stripCW cur) ++ stripCW parts.flatten := by
  intro parts
  induction parts with
  | nil => intro cur chunks; simp [stripCW_nil]
  | cons p ps ih =>
    intro cur chunks
    rw [List.foldl_cons]
    cases hs : f (cur, chunks) p with
    | mk cur2 chunks2 =>
      have hstep := hf cur chunks p
      rw [hs] at hstep
      rw [ih cur2 chunks2, hstep]
      simp [stripCW_append, List.append_assoc]

/-- Residue of the final flush of a stage: appending the stripped pending
chunk when it is non-blank changes nothing at the residue level. -/
theorem finalFlush_residue (cur : List Char) (chunks : List (List Char)) :
    stripCW (if !(pstrip cur).isEmpty then chunks ++ [pstrip cur] else chunks).flatten
      = stripCW chunks.flatten ++ stripCW cur := by
  split
  · simp [List.flatten_append, stripCW_append, stripCW_pstrip]
  · next hp =>
    have hper : stripCW cur = [] := by
      apply pstrip_nil_stripCW
      apply List.isEmpty_iff.mp
      simpa using hp
    simp [hper]

/-- Residue of a final flush that appends the raw pending chunk. -/
theorem rawFlush_residue (cur : List Char) (chunks : List (List Char)) :
    stripCW (if !cur.isEmpty then chunks ++ [cur] else chunks).flatten
      = stripCW chunks.flatten ++ stripCW cur := by
  split
  · simp [List.flatten_append, stripCW_append]
  · next hc =>
    have hnil : cur = [] := List.isEmpty_iff.mp (by simpa using hc)
    simp [hnil, stripCW_nil]

theorem stage1_stripCW (text : List Char) :
    stripCW (stage1 text).flatten = stripCW text := by
  have hinv := foldl_residue_inv stage1Fold stage1Fold_step (splitTerm text) [] []
  simp only [stage1]
  rw [finalFlush_residue, hinv, flatten_splitTerm]
  simp [stripCW_nil]

theorem stage2_stripCW (text : List Char) :
    stripCW (stage2 text).flatten = stripCW text := by
  have hinv := foldl_residue_inv stage2Fold stage2Fold_step (splitConj text) [] []
  simp only [stage2]
  rw [finalFlush_residue, hinv, flatten_splitConj]
  simp [stripCW_nil]

theorem stage3_stripCW (text : List Char) :
    stripCW (stage3 text).flatten = stripCW text := by
  have hinv := foldl_residue_inv (stage3Fold (pwords text).length)
    (stage3Fold_step (pwords text).length) (pwords text) [] []
  simp only [stage3]
  rw [rawFlush_residue, hinv]
  simp [stripCW_nil, stripCW_flatten_pwords]

theorem stagedChunks_stripCW (text : List Char) :
    stripCW (stagedChunks text).flatten = stripCW text := by
  simp only [stagedChunks]
  split <;> split <;>
    first
      | exact stage3_stripCW text
      | exact stage2_stripCW text
      | exact stage1_stripCW text

theorem stripCW_cons_comma (w : List Char) : stripCW (',' :: w) = stripCW w := by
  simp [stripCW, isCW]

theorem commaRepack_step (safe : List (List Char)) (cur : List Char) (p : List Char) :
    stripCW ((commaRepack (safe, cur) p).1).flatten ++ stripCW (commaRepack (safe, cur) p).2
      = (stripCW safe.flatten ++ stripCW cur) ++ stripCW p := by
  simp only [commaRepack]
  by_cases hc : cur.isEmpty = true
  · have hnil := List.isEmpty_iff.mp hc
    subst hnil
    simp only [List.isEmpty_nil, if_true, List.nil_append]
    split <;> simp [stripCW_nil, stripCW_append, stripCW_pstrip]
  · have hc2 : cur.isEmpty = false := by simpa using hc
    simp only [hc2, Bool.false_eq_true, if_false]
    split
    · simp [stripCW_append, stripCW_cons_comma, List.append_assoc]
    · simp [List.flatten_append, stripCW_append, stripCW_comma, stripCW_pstrip,
        List.append_assoc]

theorem wordRepack_step (safe : List (List Char)) (cur : List Char) (p : List Char) :
    stripCW ((wordRepack (safe, cur) p).1).flatten ++ stripCW (wordRepack (safe, cur) p).2
      = (stripCW safe.flatten ++ stripCW cur) ++ stripCW p := by
  simp only [wordRepack]
  by_cases hc : cur.isEmpty = true
  · have hnil := List.isEmpty_iff.mp hc
    subst hnil
    simp only [List.isEmpty_nil, if_true, List.nil_append]
    split <;> simp [stripCW_nil, stripCW_append]
  · have hc2 : cur.isEmpty = false := by simpa using hc
    simp only [hc2, Bool.false_eq_true, if_false]
    split
    · simp [stripCW_append, stripCW_cons_space, List.append_assoc]
    · simp [List.flatten_append, stripCW_append, List.append_assoc]

/-- The accumulation lemma for the oversize repacking folds, whose state
is ordered (emitted pieces, pending piece). -/
theorem foldl_residue_inv2
    (f : List (List Char) × List Char → List Char → List (List Char) × List Char)
    (hf : ∀ safe cur p,
      stripCW ((f (safe, cur) p).1).flatten ++ stripCW (f (safe, cur) p).2
        = (stripCW safe.flatten ++ stripCW cur) ++ stripCW p) :
    ∀ (parts : List (List Char)) (safe : List (List Char)) (cur : List Char),
      stripCW ((parts.foldl f (safe, cur)).1).flatten ++ stripCW (parts.foldl f (safe, cur)).2
        = (stripCW safe.flatten ++ stripCW cur) ++ stripCW parts.flatten := by
  intro parts
  induction parts with
  | nil => intro safe cur; simp [stripCW_nil]
  | cons p ps ih =>
    intro safe cur
    rw [List.foldl_cons]
    cases hs : f (safe, cur) p with
    | mk safe2 cur2 =>
      have hstep := hf safe cur p
      rw [hs] at hstep
      rw [ih safe2 cur2, hstep]
      simp [stripCW_append, List.append_assoc]

/-- Residue of the repack finalization appending the raw pending piece. -/
theorem repackFlush_residue (safe : List (List Char)) (cur : List Char) :
    stripCW (if cur.isEmpty then safe else safe ++ [cur]).flatten
      = stripCW safe.flatten ++ stripCW cur := by
  split
  · next hc =>
    have hnil : cur = [] := List.isEmpty_iff.mp hc
    simp [hnil, stripCW_nil]
  · simp [List.flatten_append, stripCW_append]

theorem splitBigComma_stripCW (c : List Char) :
    stripCW (splitBigComma c).flatten = stripCW c := by
  have hinv := foldl_residue_inv2 commaRepack commaRepack_step (c.splitOn ',') [] []
  simp only [splitBigComma]
  rw [repackFlush_residue, hinv, stripCW_flatten_splitOnComma]
  simp [stripCW_nil]

theorem splitBigWords_stripCW (c : List Char) :
    stripCW (splitBigWords c).flatten = stripCW c := by
  have hinv := foldl_residue_inv2 wordRepack wordRepack_step (pwords c) [] []
  simp only [splitBigWords]
  rw [repackFlush_residue, hinv, stripCW_flatten_pwords]
  simp [stripCW_nil]

theorem safeOne_stripCW (c : List Char) :
    stripCW (safeOne c).flatten = stripCW c := by
  simp only [safeOne]
  split
  · simp
  · split
    · exact splitBigComma_stripCW c
    · exact splitBigWords_stripCW c

theorem safePass_eq (cs : List (List Char)) :
    ∀ acc, cs.foldl (fun acc c => acc ++ safeOne c) acc = acc ++ (cs.map safeOne).flatten := by
  induction cs with
  | nil => intro acc; simp
  | cons c t ih =>
    intro acc
    rw [List.foldl_cons, ih]
    simp [List.append_assoc]

theorem safePass_stripCW (cs : List (List Char)) :
    stripCW (safePass cs).flatten = stripCW cs.flatten := by
  unfold safePass
  rw [safePass_eq cs []]
  simp only [List.nil_append]
  induction cs with
  | nil => rfl
  | cons c t ih =>
    simp only [List.map_cons, List.flatten_cons, List.flatten_append, stripCW_append]
    rw [safeOne_stripCW, ih]

theorem stripCW_flatten_filterBlank (ls : List (List Char)) :
    stripCW (ls.filter (fun c => !(pstrip c).isEmpty)).flatten = stripCW ls.flatten := by
  induction ls with
  | nil => rfl
  | cons c t ih =>
    rw [List.filter_cons]
    by_cases hp : (!(pstrip c).isEmpty) = true
    · simp only [hp, if_true, List.flatten_cons, stripCW_append]
      rw [ih]
    · have hp2 : (!(pstrip c).isEmpty) = false := by simpa using hp
      have hper : stripCW c = [] := by
        apply pstrip_nil_stripCW
        apply List.isEmpty_iff.mp
        simpa using hp
      simp only [hp2, Bool.false_eq_true, if_false, List.flatten_cons, stripCW_append,
        hper, List.nil_append]
      exact ih

theorem streamingChunks_stripCW (text : List Char) :
    stripCW (streamingChunks text).flatten = stripCW text := by
  simp only [streamingChunks]
  by_cases hempty : (safePass (stagedChunks text)).isEmpty = true
  · have hnil : safePass (stagedChunks text) = [] := List.isEmpty_iff.mp hempty
    simp only [hempty, if_true]
    rw [stripCW_flatten_filterBlank]
    have h0 : stripCW (stagedChunks text).flatten = [] := by
      rw [← safePass_stripCW, hnil]
      rfl
    have htext : stripCW text = [] := by
      rw [← stagedChunks_stripCW]
      exact h0
    have htake : stripCW (text.take 120) = [] := by
      apply List.filter_eq_nil_iff.mpr
      intro a ha
      exact List.filter_eq_nil_iff.mp htext a (List.take_subset _ _ ha)
    simpa [htake] using htext.symm
  · have hf : (safePass (stagedChunks text)).isEmpty = false := by simpa using hempty
    simp only [hf, Bool.false_eq_true, if_false]
    rw [stripCW_flatten_filterBlank, safePass_stripCW, stagedChunks_stripCW]

/-! Size bound for the chunker (claim C5).  The oversize pass caps pieces
at 120 characters, except that a piece emitted by comma repacking carries
one re-inserted trailing comma (121 characters total), and a piece with no
usable split point (no comma at comma repacking, no whitespace at word
repacking) is emitted whole. -/

/-- A chunk with one trailing comma removed, if present. -/
def exceptTrailingComma (c : List Char) : List Char :=
  if c.getLast? = some ',' then c.dropLast else c

/-- The true size discipline of an emitted chunk: after discounting one
trailing pacing comma it fits the 120-character cap, or it contains no
comma at all (an unsplittable oversized piece emitted whole). -/
def chunkCapOk (c : List Char) : Prop :=
  (exceptTrailingComma c).length ≤ 120 ∨ ',' ∉ exceptTrailingComma c

theorem mem_of_getLastP {l : List Char} {a : Char} (h : l.getLast? = some a) : a ∈ l := by
  cases l with
  | nil => simp at h
  | cons b t =>
    have hne : (b :: t) ≠ [] := List.cons_ne_nil b t
    rw [List.getLast?_eq_getLast_of_ne_nil hne] at h
    have hmem := List.getLast_mem hne
    simp only [Option.some.injEq] at h
    rw [← h]
    exact hmem

theorem exceptTrailingComma_length_le (c : List Char) :
    (exceptTrailingComma c).length ≤ c.length := by
  unfold exceptTrailingComma
  split
  · exact (List.dropLast_sublist c).length_le
  · exact Nat.le_refl _

theorem exceptTrailingComma_subset (c : List Char) :
    ∀ x ∈ exceptTrailingComma c, x ∈ c := by
  unfold exceptTrailingComma
  split
  · exact fun x hx => List.dropLast_subset c hx
  · exact fun x hx => hx

theorem chunkCapOk_of_short {c : List Char} (h : c.length ≤ 120) : chunkCapOk c :=
  Or.inl (Nat.le_trans (exceptTrailingComma_length_le c) h)

theorem chunkCapOk_of_noComma {c : List Char} (h : ',' ∉ c) : chunkCapOk c :=
  Or.inr (fun hx => h (exceptTrailingComma_subset c ',' hx))

theorem exceptTrailingComma_append_comma (cur : List Char) :
    exceptTrailingComma (cur ++ [',']) = cur := by
  unfold exceptTrailingComma
  rw [List.getLast?_concat, if_pos rfl, List.dropLast_concat]

theorem chunkCapOk_append_comma {cur : List Char}
    (h : cur.length ≤ 120 ∨ ',' ∉ cur) : chunkCapOk (cur ++ [',']) := by
  unfold chunkCapOk
  rw [exceptTrailingComma_append_comma]
  exact h

theorem mem_pstrip {l : List Char} {x : Char} (h : x ∈ pstrip l) : x ∈ l := by
  unfold pstrip at h
  rw [List.mem_reverse] at h
  have h2 := List.dropWhile_subset (l := (l.dropWhile isWS).reverse) isWS h
  rw [List.mem_reverse] at h2
  exact List.dropWhile_subset isWS h2

theorem splitOnP_pieces_not (p : Char → Bool) :
    ∀ (l : List Char), ∀ piece ∈ l.splitOnP p, ∀ x ∈ piece, p x = false := by
  intro l
  induction l with
  | nil =>
    intro piece hp x hx
    rw [List.splitOnP_nil] at hp
    simp only [List.mem_singleton] at hp
    subst hp
    simp at hx
  | cons a t ih =>
    intro piece hp x hx
    rw [List.splitOnP_cons] at hp
    by_cases ha : p a = true
    · rw [if_pos ha] at hp
      rcases List.mem_cons.mp hp with hnil | hrec
      · subst hnil; simp at hx
      · exact ih piece hrec x hx
    · rw [if_neg ha] at hp
      cases hrec : t.splitOnP p with
      | nil => exact absurd hrec (List.splitOnP_ne_nil p t)
      | cons hd tl =>
        rw [hrec] at hp
        simp only [List.modifyHead] at hp
        rcases List.mem_cons.mp hp with hhd | htl
        · subst hhd
          rcases List.mem_cons.mp hx with hxa | hxhd
          · subst hxa
            simpa using ha
          · exact ih hd (by rw [hrec]; exact List.mem_cons_self hd tl) x hxhd
        · exact ih piece (by rw [hrec]; exact List.mem_cons_of_mem hd htl) x hx

theorem splitOn_comma_pieces (c : List Char) :
    ∀ piece ∈ c.splitOn ',', ',' ∉ piece := by
  intro piece hp hmem
  have := splitOnP_pieces_not (· == ',') c piece hp ',' hmem
  simp at this

theorem pwordsAux_chars :
    ∀ (fuel : Nat) (l : List Char), ∀ w ∈ pwordsAux fuel l, ∀ x ∈ w, x ∈ l := by
  intro fuel
  induction fuel with
  | zero =>
    intro l w hw x hx
    cases l with
    | nil => simp [pwordsAux] at hw
    | cons c rest =>
      simp only [pwordsAux, List.mem_singleton] at hw
      subst hw
      exact hx
  | succ n ih =>
    intro l w hw x hx
    cases l with
    | nil => simp [pwordsAux] at hw
    | cons c rest =>
      by_cases hws : isWS c = true
      · rw [pwordsAux, if_pos hws] at hw
        exact List.mem_cons_of_mem c (ih rest w hw x hx)
      · rw [pwordsAux, if_neg hws] at hw
        rcases List.mem_cons.mp hw with hhd | htl
        · subst hhd
          rcases List.mem_cons.mp hx with hxc | hxt
          · rw [hxc]
            exact List.mem_cons_self c rest
          · exact List.mem_cons_of_mem c (List.takeWhile_subset _ hxt)
        · have := ih _ w htl x hx
          exact List.mem_cons_of_mem c (List.dropWhile_subset _ this)

theorem pwords_chars : ∀ (l : List Char), ∀ w ∈ pwords l, ∀ x ∈ w, x ∈ l :=
  fun l => pwordsAux_chars l.length l

theorem commaRepack_step_cap {safe : List (List Char)} {cur p : List Char}
    (hpnc : ',' ∉ p)
    (hsafe : ∀ x ∈ safe, chunkCapOk x) (hcur : cur.length ≤ 120 ∨ ',' ∉ cur) :
    (∀ x ∈ (commaRepack (safe, cur) p).1, chunkCapOk x) ∧
      ((commaRepack (safe, cur) p).2.length ≤ 120 ∨ ',' ∉ (commaRepack (safe, cur) p).2) := by
  unfold commaRepack
  by_cases hlen : ((safe, cur).2 ++ (if (safe, cur).2.isEmpty then [] else [',']) ++ p).length ≤ 120
  · rw [if_pos hlen]
    exact ⟨hsafe, Or.inl hlen⟩
  · rw [if_neg hlen]
    refine ⟨?_, Or.inr (fun hm => hpnc (mem_pstrip hm))⟩
    by_cases hce : (safe, cur).2.isEmpty
    · rw [if_pos hce]
      exact hsafe
    · rw [if_neg hce]
      intro x hx
      rcases List.mem_append.mp hx with hold | hnew
      · exact hsafe x hold
      · rw [List.mem_singleton] at hnew
        subst hnew
        exact chunkCapOk_append_comma hcur

theorem commaRepack_fold_cap :
    ∀ (parts : List (List Char)), (∀ p ∈ parts, ',' ∉ p) →
      ∀ (safe : List (List Char)) (cur : List Char),
        (∀ x ∈ safe, chunkCapOk x) → (cur.length ≤ 120 ∨ ',' ∉ cur) →
        (∀ x ∈ (parts.foldl commaRepack (safe, cur)).1, chunkCapOk x) ∧
          ((parts.foldl commaRepack (safe, cur)).2.length ≤ 120 ∨
            ',' ∉ (parts.foldl commaRepack (safe, cur)).2) := by
  intro parts
  induction parts with
  | nil =>
    intro _ safe cur hsafe hcur
    exact ⟨hsafe, hcur⟩
  | cons p ps ih =>
    intro hnc safe cur hsafe hcur
    rw [List.foldl_cons]
    have hpnc : ',' ∉ p := hnc p (List.mem_cons_self p ps)
    have hps : ∀ q ∈ ps, ',' ∉ q := fun q hq => hnc q (List.mem_cons_of_mem p hq)
    cases hs : commaRepack (safe, cur) p with
    | mk safe2 cur2 =>
      have hstep := commaRepack_step_cap hpnc hsafe hcur
      rw [hs] at hstep
      exact ih hps safe2 cur2 hstep.1 hstep.2

theorem wordRepack_step_cap {safe : List (List Char)} {cur w : List Char}
    (hwnc : ',' ∉ w)
    (hsafe : ∀ x ∈ safe, chunkCapOk x) (hcur : cur.length ≤ 120 ∨ ',' ∉ cur) :
    (∀ x ∈ (wordRepack (safe, cur) w).1, chunkCapOk x) ∧
      ((wordRepack (safe, cur) w).2.length ≤ 120 ∨ ',' ∉ (wordRepack (safe, cur) w).2) := by
  unfold wordRepack
  by_cases hlen : ((safe, cur).2 ++ (if (safe, cur).2.isEmpty then [] else [' ']) ++ w).length ≤ 120
  · rw [if_pos hlen]
    exact ⟨hsafe, Or.inl hlen⟩
  · rw [if_neg hlen]
    refine ⟨?_, Or.inr hwnc⟩
    by_cases hce : (safe, cur).2.isEmpty
    · rw [if_pos hce]
      exact hsafe
    · rw [if_neg hce]
      intro x hx
      rcases List.mem_append.mp hx with hold | hnew
      · exact hsafe x hold
      · rw [List.mem_singleton] at hnew
        subst hnew
        rcases hcur with hl | hnocomma
        · exact chunkCapOk_of_short hl
        · exact chunkCapOk_of_noComma hnocomma

theorem wordRepack_fold_cap :
    ∀ (ws : List (List Char)), (∀ w ∈ ws, ',' ∉ w) →
      ∀ (safe : List (List Char)) (cur : List Char),
        (∀ x ∈ safe, chunkCapOk x) → (cur.length ≤ 120 ∨ ',' ∉ cur) →
        (∀ x ∈ (ws.foldl wordRepack (safe, cur)).1, chunkCapOk x) ∧
          ((ws.foldl wordRepack (safe, cur)).2.length ≤ 120 ∨
            ',' ∉ (ws.foldl wordRepack (safe, cur)).2) := by
  intro ws
  induction ws with
  | nil =>
    intro _ safe cur hsafe hcur
    exact ⟨hsafe, hcur⟩
  | cons w rest ih =>
    intro hnc safe cur hsafe hcur
    rw [List.foldl_cons]
    have hwnc : ',' ∉ w := hnc w (List.mem_cons_self w rest)
    have hrest : ∀ q ∈ rest, ',' ∉ q := fun q hq => hnc q (List.mem_cons_of_mem w hq)
    cases hs : wordRepack (safe, cur) w with
    | mk safe2 cur2 =>
      have hstep := wordRepack_step_cap hwnc hsafe hcur
      rw [hs] at hstep
      exact ih hrest safe2 cur2 hstep.1 hstep.2

theorem repackFlush_cap {safe : List (List Char)} {cur : List Char}
    (hsafe : ∀ x ∈ safe, chunkCapOk x) (hcur : cur.length ≤ 120 ∨ ',' ∉ cur) :
    ∀ x ∈ (if cur.isEmpty then safe else safe ++ [cur]), chunkCapOk x := by
  split
  · exact hsafe
  · intro x hx
    rcases List.mem_append.mp hx with hold | hnew
    · exact hsafe x hold
    · rw [List.mem_singleton] at hnew
      subst hnew
      rcases hcur with hlen | hnc
      · exact chunkCapOk_of_short hlen
      · exact chunkCapOk_of_noComma hnc

theorem safeOne_cap (c : List Char) : ∀ x ∈ safeOne c, chunkCapOk x := by
  unfold safeOne
  split
  · next hlen =>
    intro x hx
    rw [List.mem_singleton] at hx
    subst hx
    exact chunkCapOk_of_short hlen
  · split
    · simp only [splitBigComma]
      apply repackFlush_cap
      · exact (commaRepack_fold_cap (c.splitOn ',') (splitOn_comma_pieces c) [] []
          (by intro x hx; simp at hx) (Or.inl (by simp))).1
      · exact (commaRepack_fold_cap (c.splitOn ',') (splitOn_comma_pieces c) [] []
          (by intro x hx; simp at hx) (Or.inl (by simp))).2
    · next hnc =>
      simp only [splitBigWords]
      have hwords : ∀ w ∈ pwords c, ',' ∉ w := by
        intro w hw hmem
        have hcc : (',' : Char) ∈ c := pwords_chars c w hw ',' hmem
        exact hnc (by simpa using hcc)
      apply repackFlush_cap
      · exact (wordRepack_fold_cap (pwords c) hwords [] []
          (by intro x hx; simp at hx) (Or.inl (by simp))).1
      · exact (wordRepack_fold_cap (pwords c) hwords [] []
          (by intro x hx; simp at hx) (Or.inl (by simp))).2

theorem streamingChunks_cap (text : List Char) :
    ∀ c ∈ streamingChunks text, chunkCapOk c := by
  intro c hc
  simp only [streamingChunks] at hc
  have hc2 := List.mem_of_mem_filter hc
  split at hc2
  · rw [List.mem_singleton] at hc2
    subst hc2
    exact chunkCapOk_of_short (List.length_take_le 120 text)
  · unfold safePass at hc2
    rw [safePass_eq _ []] at hc2
    simp only [List.nil_append] at hc2
    obtain ⟨pieces, hpieces, hcp⟩ := List.mem_flatten.mp hc2
    obtain ⟨chunk, _, hchunk⟩ := List.mem_map.mp hpieces
    subst hchunk
    exact safeOne_cap chunk c hcp

/-! Whitespace-only inputs produce no chunks (claim C10). -/

theorem ws_not_term {c : Char} (h : isWS c = true) : isTerm c = false := by
  simp only [isWS, Bool.or_eq_true, decide_eq_true_eq] at h
  rcases h with ((((h | h) | h) | h) | h) | h <;> subst h <;> decide

theorem ws_not_comma {c : Char} (h : isWS c = true) : ¬ c = ',' := by
  simp only [isWS, Bool.or_eq_true, decide_eq_true_eq] at h
  rcases h with ((((h | h) | h) | h) | h) | h <;> subst h <;> decide

theorem allWS_pstrip {l : List Char} (h : ∀ c ∈ l, isWS c = true) : pstrip l = [] := by
  have hdrop : l.dropWhile isWS = [] := List.dropWhile_eq_nil_iff.mpr h
  unfold pstrip
  rw [hdrop]
  rfl

theorem isTermRun_false_of {l : List Char} (h : ∀ c ∈ l, isTerm c = false) :
    isTermRun l = false := by
  cases l with
  | nil => rfl
  | cons a t => exact h a (List.mem_cons_self a t)

theorem splitTermAux_no_term :
    ∀ (fuel : Nat) (l acc : List Char), (∀ c ∈ l, isTerm c = false) →
      splitTermAux fuel l acc = [acc.reverse ++ l] := by
  intro fuel
  induction fuel with
  | zero => intro l acc _; cases l <;> simp [splitTermAux]
  | succ n ih =>
    intro l acc h
    cases l with
    | nil => simp [splitTermAux]
    | cons c rest =>
      rw [splitTermAux, if_neg (by simp [h c (List.mem_cons_self c rest)])]
      rw [ih rest (c :: acc) (fun x hx => h x (List.mem_cons_of_mem c hx))]
      simp

theorem splitConjAux_no_comma :
    ∀ (fuel : Nat) (l acc : List Char), (∀ c ∈ l, ¬ c = ',') →
      splitConjAux fuel l acc = [acc.reverse ++ l] := by
  intro fuel
  induction fuel with
  | zero => intro l acc _; cases l <;> simp [splitConjAux]
  | succ n ih =>
    intro l acc h
    cases l with
    | nil => simp [splitConjAux]
    | cons c rest =>
      have hnone : matchSep (c :: rest) = none := by
        simp [matchSep, h c (List.mem_cons_self c rest)]
      simp only [splitConjAux, hnone]
      rw [ih rest (c :: acc) (fun x hx => h x (List.mem_cons_of_mem c hx))]
      simp

theorem pwordsAux_blank :
    ∀ (fuel : Nat) (l : List Char), l.length ≤ fuel → (∀ c ∈ l, isWS c = true) →
      pwordsAux fuel l = [] := by
  intro fuel
  induction fuel with
  | zero =>
    intro l hlen _
    have hnil : l = [] := List.eq_nil_of_length_eq_zero (Nat.le_zero.mp hlen)
    subst hnil
    simp [pwordsAux]
  | succ n ih =>
    intro l hlen h
    cases l with
    | nil => simp [pwordsAux]
    | cons c rest =>
      have hws := h c (List.mem_cons_self c rest)
      rw [pwordsAux, if_pos hws]
      have hr : rest.length ≤ n := by
        simp only [List.length_cons] at hlen
        omega
      exact ih rest hr (fun x hx => h x (List.mem_cons_of_mem c hx))

theorem pwords_blank : ∀ (l : List Char), (∀ c ∈ l, isWS c = true) → pwords l = [] :=
  fun l h => pwordsAux_blank l.length l (Nat.le_refl _) h

theorem stage1_blank {text : List Char} (hws : ∀ c ∈ text, isWS c = true) :
    stage1 text = [] := by
  have hterm : ∀ c ∈ text, isTerm c = false := fun c hc => ws_not_term (hws c hc)
  have hsplit : splitTerm text = [text] := by
    unfold splitTerm
    rw [splitTermAux_no_term text.length text [] hterm]
    rfl
  have hps : pstrip text = [] := allWS_pstrip hws
  have htr : isTermRun text = false := isTermRun_false_of hterm
  have hfold : List.foldl stage1Fold ([], []) [text] = ([], []) := by
    rw [List.foldl_cons, List.foldl_nil]
    simp only [stage1Fold, List.nil_append, htr, Bool.false_eq_true, if_false, hps,
      List.isEmpty_nil, Bool.not_true]
  simp only [stage1, hsplit, hfold]
  rfl

theorem stage2_blank {text : List Char} (hws : ∀ c ∈ text, isWS c = true) :
    stage2 text = [] := by
  have hnc : ∀ c ∈ text, ¬ c = ',' := fun c hc => ws_not_comma (hws c hc)
  have hsplit : splitConj text = [text] := by
    unfold splitConj
    rw [splitConjAux_no_comma text.length text [] hnc]
    rfl
  have hps : pstrip text = [] := allWS_pstrip hws
  have hfold : List.foldl stage2Fold ([], []) [text] = (text, []) := by
    rw [List.foldl_cons, List.foldl_nil]
    simp only [stage2Fold, List.nil_append, hps, List.length_nil]
    simp
  simp only [stage2, hsplit, hfold]
  simp [hps]

theorem streamingChunks_blank {text : List Char} (hws : ∀ c ∈ text, isWS c = true) :
    streamingChunks text = [] := by
  have h1 : stage1 text = [] := stage1_blank hws
  have hpw : pwords text = [] := pwords_blank text hws
  have hstaged : stagedChunks text = [] := by
    simp only [stagedChunks, h1, hpw]
    by_cases hlen : 100 < text.length
    · simp [hlen, stage2_blank hws]
    · simp [hlen]
  have htake : pstrip (text.take 120) = [] :=
    allWS_pstrip (fun c hc => hws c (List.take_subset 120 text hc))
  simp only [streamingChunks, hstaged]
  simp [safePass, htake]

/-! Voice-activity detection: `VoiceSession._is_silence`
(src/backend/services/voice_pipeline.py lines 159-170). -/

/-- Sum of squared samples (the mean of which is the squared RMS). -/
def sumSq (xs : List Int) : Int := (xs.map (fun x => x * x)).sum

/-- The fixed silence threshold `self.silence_threshold = 0.01`. -/
def silence_threshold : ℚ := 1 / 100

/-- `VoiceSession._is_silence` on a block of signed 16-bit samples.  The
source computes `sqrt(mean(x^2)) / 32768 < 0.01`; squaring both (equal
for nonnegative quantities) keeps the definition executable over exact
rationals.  The claim theorem recovers the square-root form. -/
def is_silence (xs : List Int) : Bool :=
  if xs.length = 0 then true
  else
    decide (((sumSq xs : ℚ) / (xs.length : ℚ)) / ((32768 : ℚ) * 32768)
      < silence_threshold * silence_threshold)

theorem sumSq_nonneg (xs : List Int) : 0 ≤ sumSq xs := by
  unfold sumSq
  apply List.sum_nonneg
  intro x hx
  obtain ⟨y, _, rfl⟩ := List.mem_map.mp hx
  exact mul_self_nonneg y

/-! The voice-session state machine: `VoiceSession._process_audio_stream`
and `VoiceSession._process_speech` (voice_pipeline.py lines 127-235).
Provider calls, callbacks and playback are modelled as an `Effects`
record whose operations may fail (`Except`), covering both successful
runs and exceptions raised at any await point. -/

/-- A dialogue turn as stored in `conversation_history`. -/
structure Turn where
  role : String
  content : String
  timestamp : ℚ
deriving Repr, DecidableEq

/-- The session-local state mutated by the audio handler and the
processing cycle. -/
structure PState where
  is_processing : Bool
  audio_buffer : List Int
  silence_duration : ℚ
  conversation_history : List Turn
deriving Repr, DecidableEq

/-- Observer callbacks fired during a processing cycle. -/
inductive PEvent where
  | transcriptEvent (t : String)
  | aiResponseEvent (t : String)
deriving Repr, DecidableEq

/-- The awaited collaborators of one processing cycle; each may raise. -/
structure Effects where
  now : ℚ
  transcribe : List Int → Except Unit String
  generate : String → List Turn → Except Unit String
  tts : String → Except Unit (List Int)
  play : List Int → Except Unit Unit
  hasOnTranscript : Bool
  cbTranscript : String → Except Unit Unit
  hasOnAiResponse : Bool
  cbAiResponse : String → Except Unit Unit

/-- The `finally` block of `_process_speech`: clear the buffer, reset
`silence_duration`, clear `is_processing`. -/
def cleanupState (s : PState) : PState :=
  { s with audio_buffer := [], silence_duration := 0, is_processing := false }

/-- The `try` body of `_process_speech` after `is_processing` is set:
transcribe, bail out on a blank transcript, append the user turn, fire
the transcript observer, generate, append the assistant turn, fire the
response observer, synthesize, play.  Any error falls through to
cleanup.  Returns the pre-cleanup state, the intermediate states at each
await boundary, and the observer events fired. -/
def processBody (fx : Effects) (s1 : PState) : PState × List PState × List PEvent :=
  match fx.transcribe s1.audio_buffer with
  | .error _ => (s1, [s1], [])
  | .ok transcript =>
    if pstrip transcript.toList = [] then (s1, [s1], [])
    else
      let s2 := { s1 with
        conversation_history := s1.conversation_history ++ [⟨"user", transcript, fx.now⟩] }
      let ev1 := if fx.hasOnTranscript then [PEvent.transcriptEvent transcript] else []
      match (if fx.hasOnTranscript then fx.cbTranscript transcript else .ok ()) with
      | .error _ => (s2, [s1, s2], ev1)
      | .ok _ =>
        match fx.generate transcript s2.conversation_history with
        | .error _ => (s2, [s1, s2], ev1)
        | .ok resp =>
          let s3 := { s2 with
            conversation_history := s2.conversation_history ++ [⟨"assistant", resp, fx.now⟩] }
          let ev2 := ev1 ++ (if fx.hasOnAiResponse then [PEvent.aiResponseEvent resp] else [])
          match (if fx.hasOnAiResponse then fx.cbAiResponse resp else .ok ()) with
          | .error _ => (s3, [s1, s2, s3], ev2)
          | .ok _ =>
            match fx.tts resp with
            | .error _ => (s3, [s1, s2, s3], ev2)
            | .ok audio =>
              if audio.isEmpty then (s3, [s1, s2, s3], ev2)
              else
                let _ := fx.play audio
                (s3, [s1, s2, s3], ev2)

/-- `VoiceSession._process_speech`: the guard, the flag set, the body and
the unconditional cleanup. -/
def process_speech (fx : Effects) (s : PState) : PState × List PState × List PEvent :=
  if s.is_processing || s.audio_buffer.isEmpty then (s, [], [])
  else
    let s1 := { s with is_processing := true }
    let r := processBody fx s1
    (cleanupState r.1, r.2.1, r.2.2)

/-- An inbound audio frame. -/
structure Frame where
  samples : List Int
  samples_per_channel : Nat
  sample_rate : Nat

/-- `VoiceSession._frame_to_bytes`: reinterpreting the frame data as
int16 samples is the identity on the sample list. -/
def frame_to_bytes (f : Frame) : List Int := f.samples

/-- `self.max_silence_duration = 2.0`. -/
def max_silence_duration : ℚ := 2

/-- One iteration of the `async for` loop of
`VoiceSession._process_audio_stream` for a delivered frame: frames are
dropped whole while `is_processing` is set; otherwise the frame is
buffered, `silence_duration` is updated, and a long-enough silence over a
non-empty buffer triggers `_process_speech`. -/
def handleFrame (fx : Effects) (s : PState) (f : Frame) : PState × List PEvent :=
  if s.is_processing then (s, [])
  else
    let audio_data := frame_to_bytes f
    let s1 := { s with audio_buffer := s.audio_buffer ++ audio_data }
    let s2 := if is_silence audio_data then
        { s1 with silence_duration :=
          s1.silence_duration + (f.samples_per_channel : ℚ) / (f.sample_rate : ℚ) }
      else { s1 with silence_duration := 0 }
    if max_silence_duration ≤ s2.silence_duration ∧ ¬ s2.audio_buffer.isEmpty then
      let r := process_speech fx s2
      (r.1, r.2.2)
    else (s2, [])

theorem processBody_flag (fx : Effects) (s1 : PState) :
    (∀ t ∈ (processBody fx s1).2.1, t.is_processing = s1.is_processing) ∧
      (processBody fx s1).1.is_processing = s1.is_processing := by
  rcases htr : fx.transcribe s1.audio_buffer with e | transcript
  · simp only [processBody, htr]
    refine ⟨?_, by trivial⟩
    intro t ht
    simp only [List.mem_singleton] at ht
    subst ht
    rfl
  · by_cases hts : pstrip transcript.toList = []
    · simp only [processBody, htr, if_pos hts]
      refine ⟨?_, by trivial⟩
      intro t ht
      simp only [List.mem_singleton] at ht
      subst ht
      rfl
    · rcases hcb : (if fx.hasOnTranscript then fx.cbTranscript transcript else .ok ()) with e | u
      · simp only [processBody, htr, if_neg hts, hcb]
        refine ⟨?_, by trivial⟩
        intro t ht
        simp only [List.mem_cons, List.mem_singleton, List.not_mem_nil, or_false] at ht
        rcases ht with rfl | rfl <;> rfl
      · rcases hgen : fx.generate transcript
            (s1.conversation_history ++ [⟨"user", transcript, fx.now⟩]) with e | resp
        · simp only [processBody, htr, if_neg hts, hcb]
          simp only [hgen]
          refine ⟨?_, by trivial⟩
          intro t ht
          simp only [List.mem_cons, List.mem_singleton, List.not_mem_nil, or_false] at ht
          rcases ht with rfl | rfl <;> rfl
        · rcases hcb2 : (if fx.hasOnAiResponse then fx.cbAiResponse resp else .ok ()) with e | u2
          · simp only [processBody, htr, if_neg hts, hcb]
            simp only [hgen, hcb2]
            refine ⟨?_, by trivial⟩
            intro t ht
            simp only [List.mem_cons, List.mem_singleton, List.not_mem_nil, or_false] at ht
            rcases ht with rfl | rfl | rfl <;> rfl
          · rcases htts : fx.tts resp with e | audio
            · simp only [processBody, htr, if_neg hts, hcb]
              simp only [hgen, hcb2, htts]
              refine ⟨?_, by trivial⟩
              intro t ht
              simp only [List.mem_cons, List.mem_singleton, List.not_mem_nil, or_false] at ht
              rcases ht with rfl | rfl | rfl <;> rfl
            · by_cases ha : audio.isEmpty = true
              · simp only [processBody, htr, if_neg hts, hcb]
                simp only [hgen, hcb2, htts, ha, if_true]
                refine ⟨?_, by trivial⟩
                intro t ht
                simp only [List.mem_cons, List.mem_singleton, List.not_mem_nil, or_false] at ht
                rcases ht with rfl | rfl | rfl <;> rfl
              · simp only [processBody, htr, if_neg hts, hcb]
                simp only [hgen, hcb2, htts, ha, Bool.false_eq_true, if_false]
                refine ⟨?_, by trivial⟩
                intro t ht
                simp only [List.mem_cons, List.mem_singleton, List.not_mem_nil, or_false] at ht
                rcases ht with rfl | rfl | rfl <;> rfl

theorem process_speech_guard {fx : Effects} {s : PState}
    (h1 : s.is_processing = false) (h2 : s.audio_buffer ≠ []) :
    process_speech fx s =
      (cleanupState (processBody fx { s with is_processing := true }).1,
        (processBody fx { s with is_processing := true }).2.1,
        (processBody fx { s with is_processing := true }).2.2) := by
  unfold process_speech
  rw [if_neg (by simp [h1, h2])]

theorem is_silence_iff_rms (xs : List Int) :
    is_silence xs = true ↔
      (xs = [] ∨ Real.sqrt ((sumSq xs : ℝ) / (xs.length : ℝ)) / 32768 < 1 / 100) := by
  unfold is_silence
  by_cases hn : xs.length = 0
  · have hxe : xs = [] := List.length_eq_zero.mp hn
    simp [hn, hxe]
  · have hne : ¬ xs = [] := fun h => hn (by simp [h])
    have hnpos : 0 < xs.length := Nat.pos_of_ne_zero hn
    have hposR : (0:ℝ) < (xs.length : ℝ) := by exact_mod_cast hnpos
    have hm : (0:ℤ) ≤ sumSq xs := sumSq_nonneg xs
    simp only [hn, if_false, decide_eq_true_eq, hne, false_or]
    have hQ : ((sumSq xs : ℚ) / (xs.length : ℚ)) / ((32768 : ℚ) * 32768)
        < silence_threshold * silence_threshold ↔
        (sumSq xs : ℚ) * 10000 < (xs.length : ℚ) * 1073741824 := by
      unfold silence_threshold
      rw [div_div, div_lt_iff₀ (by positivity)]
      constructor <;> intro h <;> nlinarith [h]
    have hR : Real.sqrt ((sumSq xs : ℝ) / (xs.length : ℝ)) / 32768 < 1 / 100 ↔
        (sumSq xs : ℝ) * 10000 < (xs.length : ℝ) * 1073741824 := by
      rw [div_lt_iff₀ (by norm_num : (0:ℝ) < 32768)]
      rw [show (1:ℝ)/100 * 32768 = 32768/100 by ring]
      rw [Real.sqrt_lt' (by norm_num : (0:ℝ) < 32768/100)]
      rw [div_lt_iff₀ hposR]
      constructor <;> intro h <;> nlinarith [h]
    rw [hQ, hR]
    constructor <;> intro h <;> exact_mod_cast h

/-! Message-list construction and conversation memory of
`AIService.generate_response` (src/backend/services/ai_service.py).
The md5 fingerprint is an external library call, modelled as an
arbitrary function parameter `md5hex8` (its only property used anywhere
is being a function of its input). -/

/-- A chat message sent to the generator. -/
structure Msg where
  role : String
  content : String
deriving Repr, DecidableEq

/-- A stored long-term memory entry (`memory_data` dict of
`AIService._store_conversation_memory`). -/
structure Memory where
  user_id : String
  last_interaction : ℚ
  topics : List String
  conversation_length : Nat
  recent_context : List String
  preferences : List String
  context_summary : String
deriving Repr, DecidableEq

/-- `config.SYSTEM_PROMPT`. -/
def SYSTEM_PROMPT : String :=
  "You are a helpful AI assistant. Respond naturally and conversationally based on the user\x27s initialization message."

/-- The brevity guidance appended to every system prompt variant. -/
def brevity_suffix : String :=
  " IMPORTANT: This is a voice conversation, so keep responses short but complete - aim for 2-3 sentences maximum. Be concise, helpful, and engaging without cutting off mid-thought."

/-- The role-and-focus text placed between the first user turn's content
and the memory context in the derived system instruction. -/
def stay_focused_text : String :=
  " Stay focused on this role and topic throughout the conversation. Maintain context from previous exchanges and build upon them naturally."

/-- The memory context block injected into the derived system
instruction (generate_response lines 220-231); empty when no valid
memory or when it has neither topics nor recent context. -/
def memory_context (memory : Option Memory) : String :=
  match memory with
  | none => ""
  | some m =>
    if m.topics ≠ [] ∨ m.recent_context ≠ [] then
      "\n\nCONTEXT FROM PREVIOUS CONVERSATIONS: " ++ m.context_summary
        ++ (if m.recent_context ≠ [] then
              " Recent topics we discussed: "
                ++ String.intercalate ", "
                    (m.recent_context.drop (m.recent_context.length - 2))
                ++ "."
            else "")
        ++ " Build upon this previous context naturally."
    else ""

/-- The role filter of the history loop (`entry["role"] in ["user",
"assistant"]`). -/
def toChatMsg (t : Turn) : Option Msg :=
  if t.role = "user" ∨ t.role = "assistant" then some ⟨t.role, t.content⟩ else none

/-- The trailing user message appended `if not recent_history or
recent_history[-1]["content"] != user_input`. -/
def inputTail (user_input : String) (recent_history : List Turn) : List Msg :=
  if recent_history = [] ∨ recent_history.getLast?.map Turn.content ≠ some user_input then
    [⟨"user", user_input⟩]
  else []

/-- The message list built by `AIService.generate_response` (lines
214-260) from the current input, the conversation history, and the
retrieved memory. -/
def build_messages (user_input : String) (conversation_history : List Turn)
    (memory : Option Memory) : List Msg :=
  match conversation_history with
  | [] =>
    [⟨"system", SYSTEM_PROMPT ++ brevity_suffix⟩] ++ inputTail user_input []
  | first :: rest =>
    if first.role = "user" then
      let system_content :=
        "You are an AI assistant. " ++ first.content ++ stay_focused_text
          ++ memory_context memory ++ brevity_suffix
      let recent_history := if rest.length > 12 then rest.drop (rest.length - 12) else rest
      ⟨"system", system_content⟩ :: recent_history.filterMap toChatMsg
        ++ inputTail user_input recent_history
    else
      let recent_history :=
        if conversation_history.length > 15 then
          conversation_history.drop (conversation_history.length - 15)
        else conversation_history
      ⟨"system", SYSTEM_PROMPT ++ brevity_suffix⟩ :: recent_history.filterMap toChatMsg
        ++ inputTail user_input recent_history

/-- `AIService._get_user_id`: a coarse fingerprint from the first
message when it is a user turn, otherwise "anonymous". -/
def get_user_id (md5hex8 : String → String) (conversation_history : List Turn) : String :=
  match conversation_history with
  | [] => "anonymous"
  | first :: _ =>
    if first.role = "user" then "user_" ++ md5hex8 first.content else "anonymous"

/-- The keyword table of `_store_conversation_memory`. -/
def topic_keywords : List (String × List String) :=
  [("travel", ["travel", "trip", "vacation", "flight", "hotel", "destination"]),
   ("technology", ["technology", "tech", "software", "programming", "computer"]),
   ("food", ["food", "restaurant", "recipe", "cooking", "meal"]),
   ("health", ["health", "fitness", "exercise", "doctor", "medical"]),
   ("business", ["business", "work", "job", "career", "company"])]

/-- Topic extraction over the last 10 turns by lowercase substring
search. -/
def extract_topics (conversation_history : List Turn) : List String :=
  (conversation_history.drop (conversation_history.length - 10)).foldl
    (fun topics entry =>
      topic_keywords.foldl
        (fun topics tk =>
          if (tk.2.any (fun kw =>
              decide (kw.toList <:+: entry.content.toList.map Char.toLower)))
              && !(topics.contains tk.1) then
            topics ++ [tk.1]
          else topics)
        topics)
    []

/-- `self.memory_ttl = 24 * 3600`. -/
def memory_ttl : ℚ := 24 * 3600

/-- `self.max_memory_entries = 50`. -/
def max_memory_entries : Nat := 50

/-- The `memory_data` dict built by `_store_conversation_memory`. -/
def memory_data (user_id : String) (conversation_history : List Turn) (now : ℚ) : Memory :=
  let topics := extract_topics conversation_history
  { user_id := user_id
    last_interaction := now
    topics := topics.take 3
    conversation_length := conversation_history.length
    recent_context :=
      ((conversation_history.drop (conversation_history.length - 3)).filter
          (fun e => e.role = "user")).map Turn.content
    preferences := []
    context_summary :=
      if topics ≠ [] then "Previous conversation covered: " ++ String.intercalate ", " topics
      else "General conversation" }

/-- Python dict assignment on an insertion-ordered association list. -/
def dict_set (m : List (String × Memory)) (k : String) (v : Memory) :
    List (String × Memory) :=
  if m.any (fun p => p.1 = k) then m.map (fun p => if p.1 = k then (k, v) else p)
  else m ++ [(k, v)]

/-- `AIService._store_conversation_memory`. -/
def store_conversation_memory (user_id : String) (conversation_history : List Turn)
    (now : ℚ) (mem : List (String × Memory)) : List (String × Memory) :=
  if conversation_history.isEmpty then mem
  else dict_set mem user_id (memory_data user_id conversation_history now)

/-- `AIService._get_conversation_memory`: a fresh entry is returned, an
expired one is deleted and an empty result returned. -/
def get_conversation_memory (user_id : String) (now : ℚ)
    (mem : List (String × Memory)) : Option Memory × List (String × Memory) :=
  match mem.find? (fun p => p.1 = user_id) with
  | some p =>
    if now - p.2.last_interaction < memory_ttl then (some p.2, mem)
    else (none, mem.filter (fun q => ¬ q.1 = user_id))
  | none => (none, mem)

/-- `AIService._cleanup_memory`: drop expired entries, then evict the
oldest beyond the size cap. -/
def cleanup_memory (now : ℚ) (mem : List (String × Memory)) : List (String × Memory) :=
  let m1 := mem.filter (fun p => ¬ (memory_ttl < now - p.2.last_interaction))
  if max_memory_entries < m1.length then
    let sorted := m1.mergeSort
      (fun a b => decide (a.2.last_interaction ≤ b.2.last_interaction))
    let excess := (sorted.take (m1.length - max_memory_entries)).map Prod.fst
    m1.filter (fun p => ¬ excess.contains p.1)
  else m1

/-! The session registry: `VoicePipeline.create_session` /
`VoicePipeline.end_session` (voice_pipeline.py lines 22-43) and the
HTTP endpoint `end_session` of src/backend/main.py (lines 194-217). -/

/-- The pipeline-side view of a voice session. -/
structure VSession where
  session_id : String
  room_name : String
deriving Repr, DecidableEq

def registry_set (m : List (String × VSession)) (k : String) (v : VSession) :
    List (String × VSession) :=
  if m.any (fun p => p.1 = k) then m.map (fun p => if p.1 = k then (k, v) else p)
  else m ++ [(k, v)]

def registry_lookup (m : List (String × VSession)) (k : String) : Option VSession :=
  (m.find? (fun p => p.1 = k)).map Prod.snd

/-- `VoicePipeline.create_session`: builds the session, stores it under
`session_id` with no existence check, then awaits `initialize`; the
registry is already updated when an initialization failure propagates. -/
def create_session (reg : List (String × VSession)) (session_id room_name : String)
    (initResult : Except Unit Unit) : List (String × VSession) × Except Unit VSession :=
  let session : VSession := ⟨session_id, room_name⟩
  let reg2 := registry_set reg session_id session
  match initResult with
  | .ok _ => (reg2, .ok session)
  | .error e => (reg2, .error e)

/-- `VoicePipeline.end_session`: remove the session if present (its
cleanup swallows its own errors); silently do nothing otherwise. -/
def pipeline_end_session (reg : List (String × VSession)) (session_id : String) :
    List (String × VSession) :=
  if reg.any (fun p => p.1 = session_id) then reg.filter (fun p => ¬ p.1 = session_id)
  else reg

/-- The HTTP layer's per-session record (main.py `active_sessions`). -/
structure MainSession where
  room_name : String
  is_active : Bool
deriving Repr, DecidableEq

/-- DELETE `/api/session/{session_id}` (main.py lines 194-217): a 404
for an unknown id before any mutation; otherwise deactivate and remove
the session from the endpoint map and the pipeline registry (transport
cleanup errors are swallowed inside `cleanup`/`end_room` and cannot
abort removal). -/
def end_session_endpoint (main : List (String × MainSession))
    (pipe : List (String × VSession)) (session_id : String) :
    List (String × MainSession) × List (String × VSession) × Except Nat Unit :=
  if ¬ main.any (fun p => p.1 = session_id) then (main, pipe, .error 404)
  else
    let pipe2 := pipeline_end_session pipe session_id
    let main2 := main.filter (fun p => ¬ p.1 = session_id)
    (main2, pipe2, .ok ())

theorem registry_lookup_map_replace (k : String) (v : VSession) :
    ∀ (m : List (String × VSession)),
      registry_lookup (m.map (fun p => if p.1 = k then (k, v) else p)) k
        = if m.any (fun p => p.1 = k) then some v else none := by
  intro m
  induction m with
  | nil => rfl
  | cons p rest ih =>
    by_cases hp : p.1 = k
    · have hany : ((p :: rest).any fun q => q.1 = k) = true := by
        simp [List.any_cons, hp]
      rw [List.map_cons, if_pos hp, hany, if_pos rfl]
      unfold registry_lookup
      rw [List.find?_cons_of_pos _ (by simp)]
      rfl
    · have hany : ((p :: rest).any fun q => q.1 = k) = (rest.any fun q => q.1 = k) := by
        simp [List.any_cons, hp]
      rw [List.map_cons, if_neg hp, hany]
      unfold registry_lookup at ih ⊢
      rw [List.find?_cons_of_neg _ (by simpa using hp)]
      exact ih

theorem registry_lookup_map_other (k kother : String) (v : VSession) (hne : kother ≠ k) :
    ∀ (m : List (String × VSession)),
      registry_lookup (m.map (fun p => if p.1 = k then (k, v) else p)) kother
        = registry_lookup m kother := by
  intro m
  induction m with
  | nil => rfl
  | cons p rest ih =>
    unfold registry_lookup at ih ⊢
    by_cases hp : p.1 = k
    · rw [List.map_cons, if_pos hp]
      rw [List.find?_cons_of_neg _ (by
        simp only [decide_eq_true_eq]
        exact fun h => hne h.symm)]
      rw [List.find?_cons_of_neg _ (by
        simp only [decide_eq_true_eq]
        rw [hp]
        exact fun h => hne h.symm)]
      exact ih
    · rw [List.map_cons, if_neg hp]
      by_cases hpo : p.1 = kother
      · rw [List.find?_cons_of_pos _ (by simpa using hpo),
          List.find?_cons_of_pos _ (by simpa using hpo)]
      · rw [List.find?_cons_of_neg _ (by simpa using hpo),
          List.find?_cons_of_neg _ (by simpa using hpo)]
        exact ih

theorem registry_lookup_set_self (m : List (String × VSession)) (k : String) (v : VSession) :
    registry_lookup (registry_set m k v) k = some v := by
  unfold registry_set
  by_cases hany : m.any (fun p => p.1 = k) = true
  · rw [if_pos hany, registry_lookup_map_replace, if_pos hany]
  · rw [if_neg hany]
    unfold registry_lookup
    rw [List.find?_append]
    have hf : m.find? (fun p => decide (p.1 = k)) = none := by
      apply List.find?_eq_none.mpr
      intro p hp
      simp only [decide_eq_true_eq]
      intro hk
      exact hany (List.any_eq_true.mpr ⟨p, hp, by simpa using hk⟩)
    simp [hf, List.find?]

theorem registry_lookup_set_other (m : List (String × VSession)) (k kother : String)
    (v : VSession) (hne : kother ≠ k) :
    registry_lookup (registry_set m k v) kother = registry_lookup m kother := by
  unfold registry_set
  split
  · exact registry_lookup_map_other k kother v hne m
  · unfold registry_lookup
    rw [List.find?_append]
    cases hf : m.find? (fun p => decide (p.1 = kother)) with
    | some p => simp [hf]
    | none =>
      have hone : List.find? (fun p => decide (p.1 = kother)) [(k, v)] = none := by
        rw [List.find?_cons_of_neg _ (by
          simp only [decide_eq_true_eq]
          exact fun h => hne h.symm)]
        rfl
      simp [hone]

theorem end_session_endpoint_notfound {main : List (String × MainSession)}
    {pipe : List (String × VSession)} {sid : String}
    (h : main.any (fun p => p.1 = sid) = false) :
    end_session_endpoint main pipe sid = (main, pipe, Except.error 404) := by
  unfold end_session_endpoint
  rw [if_pos (by simp [h])]

theorem end_session_endpoint_found {main : List (String × MainSession)}
    {pipe : List (String × VSession)} {sid : String}
    (h : main.any (fun p => p.1 = sid) = true) :
    end_session_endpoint main pipe sid =
      (main.filter (fun p => ¬ p.1 = sid), pipeline_end_session pipe sid, Except.ok ()) := by
  unfold end_session_endpoint
  rw [if_neg (by simp [h])]

theorem filter_out_any_false (main : List (String × MainSession)) (sid : String) :
    ((main.filter (fun p => ¬ p.1 = sid)).any (fun p => p.1 = sid)) = false := by
  rw [Bool.eq_false_iff]
  intro hany
  obtain ⟨p, hp, hpe⟩ := List.any_eq_true.mp hany
  have := List.of_mem_filter hp
  simp only [decide_eq_true_eq] at hpe this
  exact this hpe

theorem window_eq (l : List Turn) (n : Nat) :
    (if l.length > n then l.drop (l.length - n) else l) = l.drop (l.length - n) := by
  split
  · rfl
  · next h =>
    have h0 : l.length - n = 0 := by omega
    rw [h0, List.drop_zero]

theorem window_le (l : List Turn) (n : Nat) : (l.drop (l.length - n)).length ≤ n := by
  rw [List.length_drop]
  omega

/-! Concrete fixtures used by witnesses and counterexamples. -/

/-- An effects record whose providers all succeed. -/
def fxTriv : Effects :=
  { now := 0
    transcribe := fun _ => .ok "hi"
    generate := fun _ _ => .ok "ok"
    tts := fun _ => .ok []
    play := fun _ => .ok ()
    hasOnTranscript := false
    cbTranscript := fun _ => .ok ()
    hasOnAiResponse := false
    cbAiResponse := fun _ => .ok () }

/-- An effects record whose transcription returns a whitespace-only
transcript. -/
def fxBlank : Effects := { fxTriv with transcribe := fun _ => .ok "  " }

/-- Sixteen assistant turns: a history whose first turn is not a user
turn. -/
def c3History : List Turn := List.replicate 16 ⟨"assistant", "m", 0⟩

/-- A 120-character run, a comma, and another 120-character run: a text
with a single sentence and no whitespace. -/
def c5Text : List Char := List.replicate 120 'a' ++ [','] ++ List.replicate 120 'b'

/-- A registry already holding a session for id "s". -/
def c7Reg : List (String × VSession) := [("s", ⟨"s", "room1"⟩)]

def c8Main : List (String × MainSession) := [("s", ⟨"room-s", true⟩)]

def c8Pipe : List (String × VSession) := [("s", ⟨"s", "room-s"⟩)]

def c9First : Turn := ⟨"user", "I love travel", 0⟩

def c9FirstB : Turn := ⟨"user", "I love travel", 5⟩

/-! The claims. -/

/-- C1: a frame delivered while `is_processing` is true is dropped whole:
the handler leaves the session state unchanged (nothing is appended to
`audio_buffer`, `silence_duration` is untouched, so the frame's samples
are absent from the buffer handed to transcription at the start of the
next cycle) and fires no event; moreover `is_processing` holds at every
await boundary throughout a processing cycle entered from a
non-processing state with a non-empty buffer, and is false again when
the cycle's cleanup finishes. -/
theorem c1_frames_dropped_during_processing (fx : Effects) (s : PState) (f : Frame)
    (h : s.is_processing = true) :
    handleFrame fx s f = (s, [])
    ∧ (∀ s0 : PState, s0.is_processing = false → s0.audio_buffer ≠ [] →
        (∀ t ∈ (process_speech fx s0).2.1, t.is_processing = true)
        ∧ (process_speech fx s0).1.is_processing = false) := by
  constructor
  · unfold handleFrame
    rw [if_pos h]
  · intro s0 h0 hbuf
    rw [process_speech_guard h0 hbuf]
    have hb := processBody_flag fx { s0 with is_processing := true }
    exact ⟨fun t ht => hb.1 t ht, rfl⟩

/-- Witness for C1 at a concrete processing state, dropped frame and
concrete cycle. -/
theorem c1_witness :
    handleFrame fxTriv ⟨true, [1], 0, []⟩ ⟨[2], 480, 24000⟩ = (⟨true, [1], 0, []⟩, [])
    ∧ (process_speech fxTriv ⟨false, [1], 0, []⟩).1.is_processing = false :=
  ⟨(c1_frames_dropped_during_processing fxTriv ⟨true, [1], 0, []⟩ ⟨[2], 480, 24000⟩ rfl).1,
   ((c1_frames_dropped_during_processing fxTriv ⟨true, [1], 0, []⟩ ⟨[2], 480, 24000⟩ rfl).2
     ⟨false, [1], 0, []⟩ rfl (by decide)).2⟩

/-- C2: a processing cycle entered from a non-processing state with a
non-empty buffer always ends — whatever the providers return or raise —
with an empty `audio_buffer`, a zero `silence_duration` and
`is_processing` cleared; when transcription returns a blank transcript,
the conversation history is additionally unchanged and no observer
callback fires. -/
theorem c2_cycle_always_cleans_up (fx : Effects) (s : PState)
    (h1 : s.is_processing = false) (h2 : s.audio_buffer ≠ []) :
    (process_speech fx s).1.audio_buffer = []
    ∧ (process_speech fx s).1.silence_duration = 0
    ∧ (process_speech fx s).1.is_processing = false
    ∧ (∀ transcript, fx.transcribe s.audio_buffer = Except.ok transcript →
        pstrip transcript.toList = [] →
        (process_speech fx s).1.conversation_history = s.conversation_history
        ∧ (process_speech fx s).2.2 = []) := by
  rw [process_speech_guard h1 h2]
  refine ⟨rfl, rfl, rfl, ?_⟩
  intro transcript htr hblank
  have hbody : processBody fx { s with is_processing := true } =
      ({ s with is_processing := true }, [{ s with is_processing := true }], []) := by
    simp only [processBody, htr, if_pos hblank]
  rw [hbody]
  exact ⟨rfl, rfl⟩

/-- Witness for C2 on a concrete state with a whitespace-only
transcript. -/
theorem c2_witness :
    (process_speech fxBlank ⟨false, [5], 1, []⟩).1.audio_buffer = []
    ∧ (process_speech fxBlank ⟨false, [5], 1, []⟩).1.silence_duration = 0
    ∧ (process_speech fxBlank ⟨false, [5], 1, []⟩).1.is_processing = false
    ∧ ((process_speech fxBlank ⟨false, [5], 1, []⟩).1.conversation_history = []
       ∧ (process_speech fxBlank ⟨false, [5], 1, []⟩).2.2 = []) :=
  have h := c2_cycle_always_cleans_up fxBlank ⟨false, [5], 1, []⟩ rfl (by decide)
  ⟨h.1, h.2.1, h.2.2.1, h.2.2.2 "  " rfl (by decide)⟩

/-- C3 counterexample: the claim requires the fallback branch (first
turn not a user turn) to use a window SHORTER than the 12 later turns of
the special rule, so at most 1 + 12 + 1 = 14 messages; on sixteen
assistant turns the code builds 1 + 15 + 1 = 17 messages, because the
fallback keeps the last 15 turns. -/
theorem c3_counterexample : ¬ ((build_messages "x" c3History none).length ≤ 14) := by
  decide

/-- C3 amended: with a user first turn the generator messages are
exactly a system instruction derived from that first turn's content
(role-prefixed, never forwarding the first turn itself), the role-kept
messages of the most recent 12 later turns, and the current input
appended unless its content already ends the window; with a non-user
first turn the fixed default instruction is used with the most recent
15 turns of the whole history — a LONGER window than the special rule's
12, not a shorter one as claimed. -/
theorem c3_window_amended (inp : String) (h : List Turn) (mem : Option Memory) :
    (∀ first rest, h = first :: rest → first.role = "user" →
      build_messages inp h mem =
        ⟨"system", "You are an AI assistant. " ++ first.content ++ stay_focused_text
            ++ memory_context mem ++ brevity_suffix⟩
          :: (rest.drop (rest.length - 12)).filterMap toChatMsg
          ++ inputTail inp (rest.drop (rest.length - 12))
      ∧ (rest.drop (rest.length - 12)).length ≤ 12)
    ∧ (∀ first rest, h = first :: rest → ¬ first.role = "user" →
      build_messages inp h mem =
        ⟨"system", SYSTEM_PROMPT ++ brevity_suffix⟩
          :: (h.drop (h.length - 15)).filterMap toChatMsg
          ++ inputTail inp (h.drop (h.length - 15))
      ∧ (h.drop (h.length - 15)).length ≤ 15) := by
  constructor
  · intro first rest heq hrole
    subst heq
    simp only [build_messages]
    rw [if_pos hrole, window_eq]
    exact ⟨rfl, window_le rest 12⟩
  · intro first rest heq hrole
    subst heq
    simp only [build_messages]
    rw [if_neg hrole, window_eq]
    exact ⟨rfl, window_le (first :: rest) 15⟩

/-- Witness for C3 on a one-turn persona history. -/
theorem c3_witness :
    build_messages "hi" [⟨"user", "You are a pirate.", 0⟩] none =
      [⟨"system", "You are an AI assistant. " ++ "You are a pirate." ++ stay_focused_text
          ++ memory_context none ++ brevity_suffix⟩, ⟨"user", "hi"⟩] := by
  have h := (c3_window_amended "hi" [⟨"user", "You are a pirate.", 0⟩] none).1
    ⟨"user", "You are a pirate.", 0⟩ [] rfl rfl
  rw [h.1]
  rfl

/-- C4: the voice-activity detector reports silence exactly when the
block is empty or its root-mean-square amplitude divided by 32768 is
strictly below the 0.01 threshold; `is_silence` is a pure function of
the sample block. -/
theorem c4_vad_silence_iff_rms (xs : List Int) :
    is_silence xs = true ↔
      (xs = [] ∨ Real.sqrt ((sumSq xs : ℝ) / (xs.length : ℝ)) / 32768 < 1 / 100) :=
  is_silence_iff_rms xs

set_option maxRecDepth 40000 in
set_option maxHeartbeats 2000000 in
/-- C5 counterexample: on a 120-character run, a comma, and a second
120-character run, the first yielded chunk is the first run plus a
re-inserted trailing comma — 121 characters, exceeding the claimed
120-character cap. -/
theorem c5_counterexample : ¬ (∀ c ∈ streamingChunks c5Text, c.length ≤ 120) := by
  decide

/-- C5 amended: no yielded chunk is empty or whitespace-only, and each
chunk obeys the cap after discounting one injected trailing comma — it
is at most 120 characters once a trailing comma is removed, or it
contains no comma at all (an oversized segment with no usable split
point, emitted whole). -/
theorem c5_chunk_cap_amended (text : List Char) :
    ∀ c ∈ streamingChunks text, pstrip c ≠ [] ∧ chunkCapOk c := by
  intro c hc
  refine ⟨?_, streamingChunks_cap text c hc⟩
  have hc2 := hc
  simp only [streamingChunks] at hc2
  have hp := List.of_mem_filter hc2
  simp only [Bool.not_eq_true'] at hp
  exact isEmpty_false_ne_nil hp

set_option maxRecDepth 40000 in
set_option maxHeartbeats 2000000 in
/-- Witness for C5 on the counterexample text's first chunk. -/
theorem c5_witness :
    pstrip (List.replicate 120 'a' ++ [',']) ≠ []
    ∧ chunkCapOk (List.replicate 120 'a' ++ [',']) :=
  c5_chunk_cap_amended c5Text (List.replicate 120 'a' ++ [',']) (by decide)

/-- C6: concatenating the yielded chunks in order and ignoring commas
and whitespace (the injected pacing commas and the whitespace
normalization of the splitting stages) reconstructs the original text:
no other character is lost, duplicated or reordered. -/
theorem c6_chunks_reconstruct_text (text : List Char) :
    stripCW (streamingChunks text).flatten = stripCW text :=
  streamingChunks_stripCW text

/-- C7 counterexample: creating a session for id "s" when the registry
already holds one succeeds (no error is reported) and the old session is
silently replaced by the new one. -/
theorem c7_counterexample :
    (create_session c7Reg "s" "room2" (Except.ok ())).2 = Except.ok ⟨"s", "room2"⟩
    ∧ ¬ (registry_lookup (create_session c7Reg "s" "room2" (Except.ok ())).1 "s"
          = some ⟨"s", "room1"⟩) := by
  constructor
  · rfl
  · decide

/-- C7 amended: `create_session` performs no duplicate check: with a
succeeding initialization it always reports success, maps the id to the
freshly built session — silently replacing any session already
registered under that id — and leaves every other id's entry
unchanged. -/
theorem c7_create_replaces_amended (reg : List (String × VSession)) (sid room : String) :
    (create_session reg sid room (Except.ok ())).2 = Except.ok ⟨sid, room⟩
    ∧ registry_lookup (create_session reg sid room (Except.ok ())).1 sid = some ⟨sid, room⟩
    ∧ ∀ k, ¬ k = sid → registry_lookup (create_session reg sid room (Except.ok ())).1 k
        = registry_lookup reg k := by
  refine ⟨rfl, registry_lookup_set_self reg sid ⟨sid, room⟩, ?_⟩
  intro k hk
  exact registry_lookup_set_other reg sid k ⟨sid, room⟩ hk

/-- Witness for C7 on the concrete duplicate-id registry. -/
theorem c7_witness :
    (create_session c7Reg "s" "room2" (Except.ok ())).2 = Except.ok ⟨"s", "room2"⟩
    ∧ registry_lookup (create_session c7Reg "s" "room2" (Except.ok ())).1 "s"
        = some ⟨"s", "room2"⟩
    ∧ registry_lookup (create_session c7Reg "s" "room2" (Except.ok ())).1 "t"
        = registry_lookup c7Reg "t" :=
  ⟨(c7_create_replaces_amended c7Reg "s" "room2").1,
   (c7_create_replaces_amended c7Reg "s" "room2").2.1,
   (c7_create_replaces_amended c7Reg "s" "room2").2.2 "t" (by decide)⟩

/-- C8: ending an unknown conversation id returns a 404 to the caller
with both the endpoint map and the pipeline registry unchanged; ending a
known id succeeds, removes it, and the immediate second call for the
same id fails with 404 leaving the state unchanged — ending twice never
succeeds twice. -/
theorem c8_end_unknown_id_and_twice (main : List (String × MainSession))
    (pipe : List (String × VSession)) (sid : String) :
    ((main.any (fun p => p.1 = sid)) = false →
      end_session_endpoint main pipe sid = (main, pipe, Except.error 404))
    ∧ ((main.any (fun p => p.1 = sid)) = true →
      (end_session_endpoint main pipe sid).2.2 = Except.ok ()
      ∧ end_session_endpoint (end_session_endpoint main pipe sid).1
          (end_session_endpoint main pipe sid).2.1 sid
        = ((end_session_endpoint main pipe sid).1,
           (end_session_endpoint main pipe sid).2.1, Except.error 404)) := by
  constructor
  · intro h
    exact end_session_endpoint_notfound h
  · intro h
    rw [end_session_endpoint_found h]
    exact ⟨rfl, end_session_endpoint_notfound (filter_out_any_false main sid)⟩

/-- Witness for C8: a 404 on an empty registry and a concrete
end-then-end-again run. -/
theorem c8_witness :
    end_session_endpoint ([] : List (String × MainSession)) ([] : List (String × VSession))
        "ghost" = ([], [], Except.error 404)
    ∧ ((end_session_endpoint c8Main c8Pipe "s").2.2 = Except.ok ()
       ∧ end_session_endpoint (end_session_endpoint c8Main c8Pipe "s").1
           (end_session_endpoint c8Main c8Pipe "s").2.1 "s"
         = ((end_session_endpoint c8Main c8Pipe "s").1,
            (end_session_endpoint c8Main c8Pipe "s").2.1, Except.error 404)) :=
  ⟨(c8_end_unknown_id_and_twice [] [] "ghost").1 rfl,
   (c8_end_unknown_id_and_twice c8Main c8Pipe "s").2 (by decide)⟩

/-- C9: two histories whose first turns are user turns with identical
content yield the same user fingerprint, so the memory stored at the end
of one session's generation is exactly what the other session's
generation retrieves (within the TTL, starting from an empty store), and
a non-trivial retrieved memory is injected verbatim into the derived
system instruction of the other session's message list. -/
theorem c9_shared_memory_fingerprint (md5hex8 : String → String)
    (f1 f2 : Turn) (t1r t2r : List Turn) (t1 t2 : ℚ) (resp inp : String)
    (hr1 : f1.role = "user") (hr2 : f2.role = "user") (hc : f1.content = f2.content)
    (hfresh : t2 - t1 < memory_ttl) :
    get_user_id md5hex8 (f1 :: t1r) = get_user_id md5hex8 (f2 :: t2r)
    ∧ (get_conversation_memory (get_user_id md5hex8 (f2 :: t2r)) t2
        (cleanup_memory t2
          (store_conversation_memory (get_user_id md5hex8 (f1 :: t1r))
            ((f1 :: t1r) ++ [⟨"assistant", resp, t1⟩]) t1 []))).1
      = some (memory_data (get_user_id md5hex8 (f1 :: t1r))
          ((f1 :: t1r) ++ [⟨"assistant", resp, t1⟩]) t1)
    ∧ (∀ m : Memory, m.topics ≠ [] ∨ m.recent_context ≠ [] →
        memory_context (some m) ≠ ""
        ∧ (build_messages inp (f2 :: t2r) (some m)).head? =
            some ⟨"system", "You are an AI assistant. " ++ f2.content ++ stay_focused_text
              ++ memory_context (some m) ++ brevity_suffix⟩) := by
  have hid : get_user_id md5hex8 (f1 :: t1r) = get_user_id md5hex8 (f2 :: t2r) := by
    simp only [get_user_id]
    rw [if_pos hr1, if_pos hr2, hc]
  refine ⟨hid, ?_, ?_⟩
  · rw [← hid]
    have hnotexp : ¬ (memory_ttl < t2 - t1) := not_lt.mpr (le_of_lt hfresh)
    set u := get_user_id md5hex8 (f1 :: t1r) with hu
    set hist := (f1 :: t1r) ++ [(⟨"assistant", resp, t1⟩ : Turn)] with hhist
    set md := memory_data u hist t1 with hmd
    have hlast : md.last_interaction = t1 := by
      rw [hmd]
      rfl
    have hstore : store_conversation_memory u hist t1 [] = [(u, md)] := by
      rw [hmd]
      simp [store_conversation_memory, dict_set, hhist]
    have harith : t2 ≤ memory_ttl + t1 := by
      have := not_lt.mp hnotexp
      linarith
    have hclean : cleanup_memory t2 [(u, md)] = [(u, md)] := by
      simp [cleanup_memory, hlast, harith, max_memory_entries]
    have hget : (get_conversation_memory u t2 [(u, md)]).1 = some md := by
      have hf : List.find? (fun p => decide (p.1 = u)) [(u, md)] = some (u, md) := by
        rw [List.find?_cons_of_pos _ (by simp)]
      simp only [get_conversation_memory, hf]
      rw [if_pos (by rw [hlast]; exact hfresh)]
    rw [hstore, hclean, hget]
  · intro m hm
    constructor
    · simp only [memory_context]
      rw [if_pos hm]
      intro heq
      have hlen := congrArg String.length heq
      simp only [String.length_append] at hlen
      have hpos : 0 < ("\n\nCONTEXT FROM PREVIOUS CONVERSATIONS: ").length := by decide
      have hz : ("" : String).length = 0 := rfl
      omega
    · simp only [build_messages]
      rw [if_pos hr2]
      rfl

set_option maxRecDepth 40000 in
set_option maxHeartbeats 2000000 in
/-- Witness for C9: two concrete sessions initialized with the same
persona message share the "user_"-prefixed fingerprint and the stored
travel-topic memory. -/
theorem c9_witness :
    get_user_id (fun s => s) (c9First :: [])
      = get_user_id (fun s => s) (c9FirstB :: [])
    ∧ (get_conversation_memory (get_user_id (fun s => s) (c9FirstB :: [])) 5
        (cleanup_memory 5
          (store_conversation_memory (get_user_id (fun s => s) (c9First :: []))
            ((c9First :: []) ++ [⟨"assistant", "ok", 0⟩]) 0 []))).1
      = some (memory_data (get_user_id (fun s => s) (c9First :: []))
          ((c9First :: []) ++ [⟨"assistant", "ok", 0⟩]) 0)
    ∧ (memory_context (some (memory_data (get_user_id (fun s => s) (c9First :: []))
          ((c9First :: []) ++ [⟨"assistant", "ok", 0⟩]) 0)) ≠ ""
       ∧ (build_messages "hi" (c9FirstB :: [])
            (some (memory_data (get_user_id (fun s => s) (c9First :: []))
              ((c9First :: []) ++ [⟨"assistant", "ok", 0⟩]) 0))).head? =
          some ⟨"system", "You are an AI assistant. " ++ c9FirstB.content ++ stay_focused_text
            ++ memory_context (some (memory_data (get_user_id (fun s => s) (c9First :: []))
                ((c9First :: []) ++ [⟨"assistant", "ok", 0⟩]) 0)) ++ brevity_suffix⟩) :=
  have h := c9_shared_memory_fingerprint (fun s => s) c9First c9FirstB [] [] 0 5 "ok" "hi"
    rfl rfl rfl (by norm_num [memory_ttl])
  ⟨h.1, h.2.1,
   h.2.2 (memory_data (get_user_id (fun s => s) (c9First :: []))
     ((c9First :: []) ++ [⟨"assistant", "ok", 0⟩]) 0) (by decide)⟩

/-- C10: a text that is empty or whitespace-only yields zero chunks from
the streaming text-to-speech splitter — in particular no element with
is_final set is ever produced. -/
theorem c10_blank_text_yields_no_chunks (text : List Char)
    (h : ∀ c ∈ text, isWS c = true) :
    streamingChunks text = [] :=
  streamingChunks_blank h

/-- Witness for C10 on a whitespace-only text. -/
theorem c10_witness : streamingChunks (' ' :: '\t' :: []) = [] :=
  c10_blank_text_yields_no_chunks (' ' :: '\t' :: []) (by decide)

end VoiceAI
